import Mathlib

/-!
Verification of the spell-checker core (trie dictionary, edit-distance
engine, suggestion ranker, check orchestrator) against its specification.

Strings are modelled as `List Char`; C `tolower`/`isalpha` are modelled for
the "C" locale on ASCII; `malloc` is modelled as always succeeding, so the
allocation-failure branches of the C code are not exercised.  Each
definition below is a direct translation of the corresponding C function,
named after it.
-/

/-- Model of C `tolower` (ASCII, "C" locale): fold `A`–`Z` to `a`–`z`,
leave every other character unchanged.  Used by `trie_insert`,
`trie_search` and `normalize_word`. -/
def ctolower (c : Char) : Char :=
  if 65 ≤ c.toNat ∧ c.toNat ≤ 90 then Char.ofNat (c.toNat + 32) else c

/-- Model of C `isalpha` (ASCII, "C" locale). -/
def isalpha (c : Char) : Bool :=
  (97 ≤ c.toNat && c.toNat ≤ 122) || (65 ≤ c.toNat && c.toNat ≤ 90)

/-- `c` is a lowercase letter `a`–`z` (the trie's alphabet). -/
def isLowerAZ (c : Char) : Bool :=
  97 ≤ c.toNat && c.toNat ≤ 122

/- ### Character-level helper lemmas -/

theorem char_toNat_ofNat {n : Nat} (h : Nat.isValidChar n) :
    (Char.ofNat n).toNat = n := by
  simp [Char.ofNat, h, Char.ofNatAux, Char.toNat, UInt32.toNat, BitVec.toNat_ofNatLt]

theorem char_eq_of_toNat_eq {a b : Char} (h : a.toNat = b.toNat) : a = b :=
  Char.eq_of_val_eq (UInt32.ext h)

theorem ctolower_toNat (c : Char) :
    (ctolower c).toNat = if 65 ≤ c.toNat ∧ c.toNat ≤ 90 then c.toNat + 32 else c.toNat := by
  unfold ctolower
  split
  · next h => exact char_toNat_ofNat (Or.inl (by omega))
  · rfl

theorem ctolower_idem (c : Char) : ctolower (ctolower c) = ctolower c := by
  apply char_eq_of_toNat_eq
  rw [ctolower_toNat, ctolower_toNat]
  split_ifs <;> omega

/-- After folding, a character is in `a`–`z` iff it was a letter. -/
theorem isLowerAZ_ctolower (c : Char) :
    isLowerAZ (ctolower c) = isalpha c := by
  rw [Bool.eq_iff_iff]
  simp only [isLowerAZ, isalpha, ctolower_toNat, Bool.and_eq_true, Bool.or_eq_true,
    decide_eq_true_eq]
  split <;> omega

/- ### Distance Engine: `src/edit_distance.c` -/

/-- C helper `min3`: minimum of three values (`edit_distance.c:9`). -/
def min3 (a b c : Nat) : Nat := min (min a b) c

/-- The Levenshtein dynamic-programming table common to
`compute_edit_distance` (rows) and `compute_edit_operations` (full
matrix): `dpC w1 w2 i j` is the value the C code stores in `dp[i][j]`,
the edit distance between the first `i` characters of `w1` and the
first `j` characters of `w2`, by the recurrence of
`edit_distance.c:114-134`. -/
def dpC (w1 w2 : List Char) : Nat → Nat → Nat
  | 0, j => j
  | i + 1, 0 => i + 1
  | i + 1, j + 1 =>
    if w1.getD i 'a' = w2.getD j 'a' then dpC w1 w2 i j
    else min3 (dpC w1 w2 i j + 1) (dpC w1 w2 (i + 1) j + 1) (dpC w1 w2 i (j + 1) + 1)
termination_by i j => (i, j)

/-- Inner loop of `compute_edit_distance` (`edit_distance.c:49-61`):
build `curr_row[1..]` from `prev_row` (first argument, starting at
`prev_row[j-1]`), the entry to the left (`left = curr_row[j-1]`) and the
remaining characters of `word2`. -/
def buildRow (c : Char) : List Nat → Nat → List Char → List Nat
  | pdiag :: prest, left, y :: ys =>
    let v := if c = y then pdiag
             else min3 (pdiag + 1) (left + 1) (prest.headD 0 + 1)
    v :: buildRow c prest v ys
  | _, _, _ => []

/-- Outer loop of `compute_edit_distance` (`edit_distance.c:46-67`):
process the remaining characters of `word1`, carrying the row index `i`
and the previous row. -/
def editRows : List Char → Nat → List Nat → List Char → List Nat
  | [], _, prev, _ => prev
  | c :: rest, i, prev, w2 => editRows rest (i + 1) (i :: buildRow c prev i w2) w2

/-- `compute_edit_distance` (`edit_distance.c:18-75`), space-optimised
two-row Levenshtein distance.  The C `NULL`-argument branch (return -1)
is outside the model: strings are values here. -/
def compute_edit_distance (w1 w2 : List Char) : Nat :=
  if w1.length = 0 then w2.length
  else if w2.length = 0 then w1.length
  else (editRows w1 1 (List.range (w2.length + 1)) w2).getLastD 0

/-- Edit-operation kind (`EditOperation.type` in `edit_distance.h`). -/
inductive EditType : Type where
  | EDIT_MATCH : EditType
  | EDIT_SUBSTITUTE : EditType
  | EDIT_INSERT : EditType
  | EDIT_DELETE : EditType
deriving DecidableEq

export EditType (EDIT_MATCH EDIT_SUBSTITUTE EDIT_INSERT EDIT_DELETE)

/-- One edit operation, as recorded by `compute_edit_operations`.  The C
`'\0'` sentinel for an absent character is `Char.ofNat 0`. -/
structure EditOperation : Type where
  type : EditType
  from_char : Char
  to_char : Char
  position : Nat
deriving DecidableEq

/-- Result of `compute_edit_operations` (`EditResult` in `edit_distance.h`). -/
structure EditResult : Type where
  distance : Nat
  operations : List EditOperation
deriving DecidableEq

/-- Backtracking loop of `compute_edit_operations`
(`edit_distance.c:155-191`), walking from `(i, j)` toward `(0, 0)` and
recording operations in the order the C loop pushes them (the C code
reverses this list afterwards).  The final `else` branch is unreachable
(the C loop would spin forever there); it returns `[]`. -/
def backtrackOps (w1 w2 : List Char) : Nat → Nat → List EditOperation
  | 0, 0 => []
  | i, j =>
    if h1 : 0 < i ∧ 0 < j ∧ w1.getD (i - 1) 'a' = w2.getD (j - 1) 'a' then
      ⟨EDIT_MATCH, w1.getD (i - 1) 'a', w2.getD (j - 1) 'a', i - 1⟩ ::
        backtrackOps w1 w2 (i - 1) (j - 1)
    else if h2 : 0 < i ∧ 0 < j ∧ dpC w1 w2 i j = dpC w1 w2 (i - 1) (j - 1) + 1 then
      ⟨EDIT_SUBSTITUTE, w1.getD (i - 1) 'a', w2.getD (j - 1) 'a', i - 1⟩ ::
        backtrackOps w1 w2 (i - 1) (j - 1)
    else if h3 : 0 < j ∧ dpC w1 w2 i j = dpC w1 w2 i (j - 1) + 1 then
      ⟨EDIT_INSERT, Char.ofNat 0, w2.getD (j - 1) 'a', i⟩ ::
        backtrackOps w1 w2 i (j - 1)
    else if h4 : 0 < i ∧ dpC w1 w2 i j = dpC w1 w2 (i - 1) j + 1 then
      ⟨EDIT_DELETE, w1.getD (i - 1) 'a', Char.ofNat 0, i - 1⟩ ::
        backtrackOps w1 w2 (i - 1) j
    else []
termination_by i j => i + j
decreasing_by all_goals omega

/-- `compute_edit_operations` (`edit_distance.c:80-209`): full-matrix
distance plus backtracked, reversed operation list. -/
def compute_edit_operations (w1 w2 : List Char) : EditResult :=
  { distance := dpC w1 w2 w1.length w2.length
    operations := (backtrackOps w1 w2 w1.length w2.length).reverse }

/-- Inner loop of `get_distance_row` (`edit_distance.c:252-261`);
textually the same update as `buildRow`, kept separate because the C
code duplicates it. -/
def buildRowG (c : Char) : List Nat → Nat → List Char → List Nat
  | pdiag :: prest, left, y :: ys =>
    let v := if c = y then pdiag
             else min3 (pdiag + 1) (left + 1) (prest.headD 0 + 1)
    v :: buildRowG c prest v ys
  | _, _, _ => []

/-- Outer loop of `get_distance_row` (`edit_distance.c:249-267`). -/
def gRows : List Char → Nat → List Nat → List Char → List Nat
  | [], _, prev, _ => prev
  | c :: rest, i, prev, w2 => gRows rest (i + 1) (i :: buildRowG c prev i w2) w2

/-- `get_distance_row` (`edit_distance.c:215-272`): the final row of the
edit-distance table for `word` against the first `target_len` characters
of `target` (the C loop never reads `target` past `target_len`).  An
empty `word` returns the initialised row unchanged, as in the C code. -/
def get_distance_row (word target : List Char) (target_len : Nat) : List Nat :=
  gRows word 1 (List.range (target_len + 1)) (target.take target_len)

/-- Specification-side semantics of an edit script: apply the operations
start-to-end to the source string, consuming one source character for a
match, substitution or deletion and none for an insertion, and emitting
the carried character for substitutions and insertions.  Leftover source
characters (none arise for scripts produced by the backtracker) are kept. -/
def applyOps : List EditOperation → List Char → List Char
  | [], src => src
  | op :: rest, src =>
    match op.type with
    | EDIT_MATCH =>
      match src with
      | [] => op.to_char :: applyOps rest []
      | c :: src' => c :: applyOps rest src'
    | EDIT_SUBSTITUTE => op.to_char :: applyOps rest src.tail
    | EDIT_INSERT => op.to_char :: applyOps rest src
    | EDIT_DELETE => applyOps rest src.tail

/-- Number of operations in a script that consume a source character
(everything except insertions). -/
def consumedCount (ops : List EditOperation) : Nat :=
  (ops.filter (fun op => op.type ≠ EDIT_INSERT)).length

/-- Number of operations in a script whose type is not `match`. -/
def nonMatchCount (ops : List EditOperation) : Nat :=
  (ops.filter (fun op => op.type ≠ EDIT_MATCH)).length

/- ### Prefix Dictionary: the trie (`src/trie.c`, `include/trie.h`) -/

/-- `TrieNode` (`trie.h`): 26 child slots, end-of-word flag, duplicate
counter.  The C fixed array `children[26]` is a list of length 26. -/
inductive TrieNode : Type where
  | mk (children : List (Option TrieNode)) (is_end_of_word : Bool) (word_count : Nat)

/-- `trie_node_create` (`trie.c:10-25`): fresh node, children all `NULL`. -/
def trie_node_create : TrieNode := .mk (List.replicate 26 none) false 0

def TrieNode.children : TrieNode → List (Option TrieNode)
  | .mk ch _ _ => ch

def TrieNode.is_end_of_word : TrieNode → Bool
  | .mk _ e _ => e

/-- Per-node allocation cost charged to `memory_usage` (`sizeof(TrieNode)`
in the C code: an arbitrary positive constant here). -/
def sizeofTrieNode : Nat := 224

/-- `sizeof(Trie)` (arbitrary positive constant). -/
def sizeofTrie : Nat := 24

/-- `Trie` (`trie.h`): root node plus cached statistics. -/
structure Trie : Type where
  root : TrieNode
  total_words : Nat
  memory_usage : Nat

/-- `trie_create` (`trie.c:68-84`). -/
def trie_create : Trie :=
  { root := trie_node_create
    total_words := 0
    memory_usage := sizeofTrie + sizeofTrieNode }

/-- Outcome of the traversal loop of `trie_insert`: success flag, updated
node, number of nodes created (each charged `sizeofTrieNode` to
`memory_usage` as the C loop goes), and whether the end-of-word flag was
newly set (`total_words` increments). -/
structure InsertRes : Type where
  ok : Bool
  node : TrieNode
  created : Nat
  newWord : Bool

/-- Traversal/creation loop of `trie_insert` (`trie.c:95-122`).  Each
character is folded with `tolower` and rejected outside `a`–`z`; a
missing child is created *before* the next character is examined, so a
failure part-way leaves the prefix nodes in place, exactly as in C.
Reaching the end of the word marks the node and bumps `word_count`. -/
def insertGo : TrieNode → List Char → InsertRes
  | .mk ch e wc, [] => ⟨true, .mk ch true (wc + 1), 0, !e⟩
  | .mk ch e wc, c :: rest =>
    if (ctolower c).toNat < 97 ∨ 122 < (ctolower c).toNat then ⟨false, .mk ch e wc, 0, false⟩
    else
      match ch.getD ((ctolower c).toNat - 97) none with
      | none =>
        ⟨(insertGo trie_node_create rest).ok,
          .mk (ch.set ((ctolower c).toNat - 97) (some (insertGo trie_node_create rest).node)) e wc,
          (insertGo trie_node_create rest).created + 1,
          (insertGo trie_node_create rest).newWord⟩
      | some child =>
        ⟨(insertGo child rest).ok,
          .mk (ch.set ((ctolower c).toNat - 97) (some (insertGo child rest).node)) e wc,
          (insertGo child rest).created,
          (insertGo child rest).newWord⟩

/-- `trie_insert` (`trie.c:86-125`): returns the C boolean result and the
updated trie (the C function mutates in place).  Statistics update as in
the C code: `memory_usage` grows by `sizeof(TrieNode)` per created node
even if the insertion later fails; `total_words` grows only when the end
flag is newly set (which only happens on success). -/
def trie_insert (t : Trie) (word : List Char) : Bool × Trie :=
  if word.length = 0 then (false, t)
  else
    let r := insertGo t.root word
    (r.ok,
      { root := r.node
        total_words := t.total_words + (if r.newWord then 1 else 0)
        memory_usage := t.memory_usage + r.created * sizeofTrieNode })

/-- Traversal loop of `trie_search` (`trie.c:136-155`). -/
def searchGo : TrieNode → List Char → Bool
  | n, [] => n.is_end_of_word
  | .mk ch _ _, c :: rest =>
    if (ctolower c).toNat < 97 ∨ 122 < (ctolower c).toNat then false
    else
      match ch.getD ((ctolower c).toNat - 97) none with
      | none => false
      | some child => searchGo child rest

/-- `trie_search` (`trie.c:127-156`): empty words are rejected up front. -/
def trie_search (t : Trie) (word : List Char) : Bool :=
  if word.length = 0 then false else searchGo t.root word

mutual
/-- Number of nodes with the end-of-word flag set (the quantity
`total_words` is specified to track). -/
def countEnd : TrieNode → Nat
  | .mk ch e _ => (if e then 1 else 0) + countEndList ch
def countEndList : List (Option TrieNode) → Nat
  | [] => 0
  | none :: rest => countEndList rest
  | some c :: rest => countEnd c + countEndList rest
end

mutual
/-- `trie_collect_words` (`trie.c:174-214`): depth-first collection; a
node's own word (if flagged) precedes its children, children in alphabet
order `a`–`z`.  `collectChildren` walks the child array from index `i`. -/
def collectGo : TrieNode → List Char → List (List Char)
  | .mk ch e _, pfx => (if e then [pfx] else []) ++ collectChildren ch 0 pfx
def collectChildren : List (Option TrieNode) → Nat → List Char → List (List Char)
  | [], _, _ => []
  | none :: rest, i, pfx => collectChildren rest (i + 1) pfx
  | some c :: rest, i, pfx =>
    collectGo c (pfx ++ [Char.ofNat (97 + i)]) ++ collectChildren rest (i + 1) pfx
end

/-- `trie_get_all_words` (`trie.c:216-242`). -/
def trie_get_all_words (t : Trie) : List (List Char) :=
  collectGo t.root []

/-- A sequence of insertions applied to a trie (the reachable states of a
dictionary are `applyInserts ws trie_create`). -/
def applyInserts (ws : List (List Char)) (t : Trie) : Trie :=
  ws.foldl (fun t w => (trie_insert t w).2) t

/-- Well-formedness: every child array has exactly 26 slots, as the C
fixed-size arrays do.  Holds for every reachable trie. -/
inductive NodeWF : TrieNode → Prop where
  | mk : ∀ ch e wc, ch.length = 26 →
      (∀ c ∈ ch, ∀ n, c = some n → NodeWF n) → NodeWF (.mk ch e wc)

/- ### Tokenizer output and validation (`src/file_io.c`) -/

/-- `normalize_word` (`file_io.c:112-156`): reject empty or over-long
input, keep alphabetic characters folded to lowercase, drop everything
else, and reject results with no characters left.  `none` models the C
`NULL` return (allocation is modelled as succeeding). -/
def normalize_word (word : List Char) : Option (List Char) :=
  if word.length = 0 then none
  else if 100 < word.length then none
  else if (word.filterMap (fun c => if isalpha c then some (ctolower c) else none)).length = 0
    then none
  else some (word.filterMap (fun c => if isalpha c then some (ctolower c) else none))

/-- Run-length check inside `is_valid_word` (`file_io.c:181-191`):
reject more than 3 identical consecutive characters. -/
def consecCheck : Char → Nat → List Char → Bool
  | _, _, [] => true
  | p, cnt, c :: rest =>
    if c = p then (if 3 < cnt + 1 then false else consecCheck c (cnt + 1) rest)
    else consecCheck c 1 rest

/-- `is_valid_word` (`file_io.c:158-194`): non-empty, alphabetic only,
length in `[2, 50]`, no run of more than 3 identical characters. -/
def is_valid_word (word : List Char) : Bool :=
  match word with
  | [] => false
  | c :: rest =>
    (c :: rest).all isalpha && 2 ≤ (c :: rest).length && (c :: rest).length ≤ 50 &&
      consecCheck c 1 rest

/-- `TextToken` (`file_io.h`): normalized word, original surface text,
1-based line, 0-based position. -/
structure TextToken : Type where
  word : List Char
  original_word : List Char
  line_number : Nat
  position : Nat

/- ### Check Orchestrator and Suggestion Ranker (`src/spell_check.c`) -/

/-- `is_alpha_char` (`spell_check.c`). -/
def is_alpha_char (c : Char) : Bool :=
  (97 ≤ c.toNat && c.toNat ≤ 122) || (65 ≤ c.toNat && c.toNat ≤ 90)

/-- `is_alphabetic_word` (`spell_check.c`). -/
def is_alphabetic_word (word : List Char) : Bool :=
  !word.isEmpty && word.all is_alpha_char

/-- Model of C `isupper` (ASCII). -/
def cisupper (c : Char) : Bool :=
  65 ≤ c.toNat && c.toNat ≤ 90

/-- `is_likely_proper_noun` (`spell_check.c:392-407`): capitalized
original word not at position 0.  An empty original word reads the C
string terminator, which is not uppercase. -/
def is_likely_proper_noun (word : List Char) (token : TextToken) : Bool :=
  match token.original_word with
  | [] => false
  | c :: _ => if cisupper c then (if token.position = 0 then false else true) else false

/-- Candidate pair of `generate_suggestions` (`WordDistance` in
`spell_check.c:429-432`). -/
abbrev WordDistance := List Char × Nat

/-- One inner bubble-sort pass of `generate_suggestions`
(`spell_check.c:468-476`): `m` compare/swap steps on adjacent pairs from
the front, swapping when the left distance is greater. -/
def bubblePassN : Nat → List WordDistance → List WordDistance
  | 0, l => l
  | m + 1, x :: y :: rest =>
    if y.2 < x.2 then y :: bubblePassN m (x :: rest) else x :: bubblePassN m (y :: rest)
  | _ + 1, l => l

/-- Outer bubble-sort loop (`spell_check.c:468`): passes of
`count - 1, count - 2, …, 1` compare/swap steps. -/
def bubbleOuter : Nat → List WordDistance → List WordDistance
  | 0, l => l
  | k + 1, l => bubbleOuter k (bubblePassN (k + 1) l)

/-- The bubble sort of `generate_suggestions`, ascending by distance. -/
def bubble_sort (l : List WordDistance) : List WordDistance :=
  bubbleOuter (l.length - 1) l

/-- `generate_suggestions` (`spell_check.c:412-502`): enumerate the
dictionary, keep words at distance in `(0, 2]` from the query, bubble-sort
ascending by distance, return the first (at most) 5 words.  The C `NULL`
returns for an empty dictionary or an empty candidate set are the empty
list here. -/
def generate_suggestions (misspelled_word : List Char) (dictionary : Trie) :
    List (List Char) :=
  let all_words := trie_get_all_words dictionary
  let candidates := all_words.filterMap (fun w =>
    let distance := compute_edit_distance misspelled_word w
    if distance ≤ 2 ∧ 0 < distance then some (w, distance) else none)
  ((bubble_sort candidates).take 5).map Prod.fst

/-- `SpellError` (`spell_check.h`), minus the score array (scores are
populated from suggestion indices and carry no checked property). -/
structure SpellError : Type where
  misspelled_word : List Char
  original_word : List Char
  line_number : Nat
  position : Nat
  suggestions : List (List Char)

/-- `SpellCheckResult` (`spell_check.h`): `error_count` is the length of
`errors`. -/
structure SpellCheckResult : Type where
  errors : List SpellError
  total_words_checked : Nat

/-- `spell_check_document` (`spell_check.c:507-590`): per token — skip
invalid/non-alphabetic words; count the word; if the trie lookup fails
and the proper-noun heuristic does not fire, append a `SpellError` with
suggestions.  Note: the function consults only the local trie; it never
calls into `api_client.c`. -/
def spell_check_document (doc : List TextToken) (dictionary : Trie) : SpellCheckResult :=
  doc.foldl (fun result token =>
    if ¬(is_valid_word token.word && is_alphabetic_word token.word) then result
    else
      let result := { result with total_words_checked := result.total_words_checked + 1 }
      if trie_search dictionary token.word then result
      else if is_likely_proper_noun token.word token then result
      else
        { result with
          errors := result.errors ++
            [{ misspelled_word := token.word
               original_word := token.original_word
               line_number := token.line_number
               position := token.position
               suggestions := generate_suggestions token.word dictionary }] })
    ⟨[], 0⟩

/- ### External oracle (`src/api_client.c`) -/

/-- Global state of the API client (`api_client.c:14-17`) together with
the network's behaviour, abstracted as a function from the queried word
to the outcome `make_api_request`/`parse_json_response` would produce:
`1` found, `0` not found, `-1` transport/HTTP error. -/
structure APIState : Type where
  initialized : Bool
  oracle : List Char → Int

/-- `fetch_from_api` (`api_client.c:206-250`): `-1` for an empty word or
an uninitialized client, otherwise the oracle's verdict.  (Statistics
counters are not modelled; they carry no checked property.) -/
def fetch_from_api (api : APIState) (word : List Char) : Int :=
  if word.length = 0 then -1
  else if !api.initialized then -1
  else api.oracle word

/- ### Bridge: the two-row loop computes the DP table's last row -/

/-- `rowFrom f j0 n = [f j0, f (j0 + 1), …, f (j0 + n - 1)]`: the segment
of a table row described by its entries. -/
def rowFrom (f : Nat → Nat) : Nat → Nat → List Nat
  | _, 0 => []
  | j0, n + 1 => f j0 :: rowFrom f (j0 + 1) n

theorem rowFrom_congr {f g : Nat → Nat} :
    ∀ n j0, (∀ j, j0 ≤ j → j < j0 + n → f j = g j) → rowFrom f j0 n = rowFrom g j0 n := by
  intro n
  induction n with
  | zero => intro j0 _; rfl
  | succ n ih =>
    intro j0 h
    simp only [rowFrom]
    refine congrArg₂ _ (h j0 le_rfl (by omega)) (ih (j0 + 1) ?_)
    intro j hj1 hj2
    exact h j (by omega) (by omega)

theorem range'_eq_rowFrom : ∀ n j0, List.range' j0 n = rowFrom (fun j => j) j0 n := by
  intro n
  induction n with
  | zero => intro; rfl
  | succ n ih => intro j0; rw [List.range'_succ]; simp only [rowFrom]; rw [ih]

theorem rowFrom_getLastD : ∀ (n : Nat) (f : Nat → Nat) (j0 d : Nat),
    (rowFrom f j0 (n + 1)).getLastD d = f (j0 + n) := by
  intro n
  induction n with
  | zero => intros; rfl
  | succ n ih =>
    intro f j0 d
    show (f j0 :: rowFrom f (j0 + 1) (n + 1)).getLastD d = _
    rw [List.getLastD_cons, ih]
    congr 1
    omega

theorem rowFrom_getD : ∀ (n : Nat) (f : Nat → Nat) (j0 d : Nat),
    (rowFrom f j0 (n + 1)).getD n d = f (j0 + n) := by
  intro n
  induction n with
  | zero => intros; rfl
  | succ n ih =>
    intro f j0 d
    show (f j0 :: rowFrom f (j0 + 1) (n + 1)).getD (n + 1) d = _
    rw [List.getD_cons_succ, ih]
    congr 1
    omega

theorem dpC_zero_left (w1 w2 : List Char) (j : Nat) : dpC w1 w2 0 j = j := by
  cases j <;> simp [dpC]

theorem dpC_zero_right (w1 w2 : List Char) (i : Nat) : dpC w1 w2 i 0 = i := by
  cases i <;> simp [dpC]

theorem buildRow_spec (w1 w2 : List Char) (k : Nat) :
    ∀ ys j0, ys = w2.drop j0 → j0 ≤ w2.length →
      buildRow (w1.getD k 'a') (rowFrom (dpC w1 w2 k) j0 (w2.length + 1 - j0))
          (dpC w1 w2 (k + 1) j0) ys
        = rowFrom (dpC w1 w2 (k + 1)) (j0 + 1) (w2.length - j0) := by
  intro ys
  induction ys with
  | nil =>
    intro j0 hys hj0
    have hj : w2.length ≤ j0 := by
      have := congrArg List.length hys
      simp [List.length_drop] at this
      omega
    have hj' : j0 = w2.length := le_antisymm hj0 hj
    rw [show w2.length + 1 - j0 = 1 from by omega, show w2.length - j0 = 0 from by omega]
    rfl
  | cons y ys' ih =>
    intro j0 hys hj0
    have hj : j0 < w2.length := by
      have := congrArg List.length hys
      simp [List.length_drop] at this
      omega
    have hdrop : w2.drop j0 = w2[j0] :: w2.drop (j0 + 1) := List.drop_eq_getElem_cons hj
    rw [hdrop] at hys
    obtain ⟨hy, hys'⟩ : y = w2[j0] ∧ ys' = w2.drop (j0 + 1) :=
      ⟨(List.cons.injEq _ _ _ _ ▸ hys).1, (List.cons.injEq _ _ _ _ ▸ hys).2⟩
    rw [show w2.length + 1 - j0 = (w2.length - j0 - 1 + 1) + 1 from by omega]
    simp only [rowFrom]
    rw [show w2.length - j0 = (w2.length - j0 - 1) + 1 from by omega]
    simp only [rowFrom, buildRow, List.headD_cons]
    have hgetD : w2.getD j0 'a' = w2[j0] := List.getD_eq_getElem w2 'a' hj
    have hval : (if w1.getD k 'a' = y then dpC w1 w2 k j0
        else min3 (dpC w1 w2 k j0 + 1) (dpC w1 w2 (k + 1) j0 + 1)
          (dpC w1 w2 k (j0 + 1) + 1)) = dpC w1 w2 (k + 1) (j0 + 1) := by
      rw [hy, ← hgetD]
      simp only [dpC]
    rw [hval]
    refine congrArg _ ?_
    have := ih (j0 + 1) hys' (by omega)
    rw [show w2.length + 1 - (j0 + 1) = (w2.length - j0 - 1) + 1 from by omega] at this
    rw [show w2.length - (j0 + 1) = w2.length - j0 - 1 from by omega] at this
    have hprest : dpC w1 w2 k (j0 + 1) ::
        rowFrom (dpC w1 w2 k) (j0 + 1 + 1) (w2.length - j0 - 1 + 1 - 1)
        = rowFrom (dpC w1 w2 k) (j0 + 1) (w2.length - j0 - 1 + 1) := by
      rw [show w2.length - j0 - 1 + 1 - 1 = w2.length - j0 - 1 from by omega]
      simp only [rowFrom]
    rw [hprest]
    exact this

theorem editRows_spec (w1 w2 : List Char) :
    ∀ rest k, rest = w1.drop k → k ≤ w1.length →
      editRows rest (k + 1) (rowFrom (dpC w1 w2 k) 0 (w2.length + 1)) w2
        = rowFrom (dpC w1 w2 w1.length) 0 (w2.length + 1) := by
  intro rest
  induction rest with
  | nil =>
    intro k hk hk2
    have : w1.length ≤ k := by
      have := congrArg List.length hk
      simp [List.length_drop] at this
      omega
    have hk' : k = w1.length := le_antisymm hk2 this
    rw [editRows, hk']
  | cons c rest' ih =>
    intro k hk hk2
    have hklt : k < w1.length := by
      have := congrArg List.length hk
      simp [List.length_drop] at this
      omega
    have hdrop : w1.drop k = w1[k] :: w1.drop (k + 1) := List.drop_eq_getElem_cons hklt
    rw [hdrop] at hk
    obtain ⟨hc, hrest⟩ : c = w1[k] ∧ rest' = w1.drop (k + 1) :=
      ⟨(List.cons.injEq _ _ _ _ ▸ hk).1, (List.cons.injEq _ _ _ _ ▸ hk).2⟩
    rw [editRows]
    have hcg : c = w1.getD k 'a' := by rw [hc, List.getD_eq_getElem w1 'a' hklt]
    have hbr := buildRow_spec w1 w2 k w2 0 rfl (Nat.zero_le _)
    rw [show w2.length + 1 - 0 = w2.length + 1 from by omega] at hbr
    rw [show w2.length - 0 = w2.length from by omega] at hbr
    rw [dpC_zero_right] at hbr
    rw [hcg, hbr]
    have hcons : (k + 1) :: rowFrom (dpC w1 w2 (k + 1)) (0 + 1) w2.length
        = rowFrom (dpC w1 w2 (k + 1)) 0 (w2.length + 1) := by
      simp only [rowFrom]
      rw [dpC_zero_right]
    rw [hcons]
    exact ih (k + 1) hrest (by omega)

/-- The space-optimised `compute_edit_distance` returns exactly the DP
table corner value `dp[len1][len2]` used by `compute_edit_operations`. -/
theorem compute_edit_distance_eq_dpC (w1 w2 : List Char) :
    compute_edit_distance w1 w2 = dpC w1 w2 w1.length w2.length := by
  unfold compute_edit_distance
  split
  · next h => rw [h, dpC_zero_left]
  · split
    · next h => rw [h, dpC_zero_right]
    · have hinit : List.range (w2.length + 1) = rowFrom (dpC w1 w2 0) 0 (w2.length + 1) := by
        rw [List.range_eq_range', range'_eq_rowFrom]
        exact rowFrom_congr _ _ (fun j _ _ => (dpC_zero_left w1 w2 j).symm)
      rw [hinit, editRows_spec w1 w2 w1 0 rfl (Nat.zero_le _)]
      rw [rowFrom_getLastD w2.length (dpC w1 w2 w1.length) 0 0]
      rw [Nat.zero_add]

/- ### C8: `get_distance_row` agrees with `compute_edit_distance` -/

theorem buildRowG_eq_buildRow (c : Char) :
    ∀ ys prev left, buildRowG c prev left ys = buildRow c prev left ys := by
  intro ys
  induction ys with
  | nil => intro prev left; cases prev <;> rfl
  | cons y ys ih =>
    intro prev left
    cases prev with
    | nil => rfl
    | cons pdiag prest =>
      simp only [buildRowG, buildRow]
      rw [ih]

theorem gRows_eq_editRows :
    ∀ rest i prev w2, gRows rest i prev w2 = editRows rest i prev w2 := by
  intro rest
  induction rest with
  | nil => intros; rfl
  | cons c rest ih =>
    intro i prev w2
    simp only [gRows, editRows]
    rw [buildRowG_eq_buildRow, ih]

/-- C8: for `target_len` equal to the length of `target`, the final entry
of the row returned by `get_distance_row` (index `target_len`) equals
`compute_edit_distance word target`: the incremental row computation
refines the full distance computation. -/
theorem get_distance_row_final_entry (word target : List Char) (target_len : Nat)
    (h : target_len = target.length) :
    (get_distance_row word target target_len).getD target_len 0
      = compute_edit_distance word target := by
  unfold get_distance_row
  rw [gRows_eq_editRows, h, List.take_length]
  have hinit : List.range (target.length + 1)
      = rowFrom (dpC word target 0) 0 (target.length + 1) := by
    rw [List.range_eq_range', range'_eq_rowFrom]
    exact rowFrom_congr _ _ (fun j _ _ => (dpC_zero_left word target j).symm)
  rw [hinit, editRows_spec word target word 0 rfl (Nat.zero_le _)]
  rw [rowFrom_getD target.length (dpC word target word.length) 0 0, Nat.zero_add]
  exact (compute_edit_distance_eq_dpC word target).symm

/-- Witness for C8 at `word = "ab"`, `target = "b"`, `target_len = 1`. -/
theorem get_distance_row_final_entry_witness :
    (1 : Nat) = (['b'] : List Char).length ∧
      (get_distance_row ['a', 'b'] ['b'] 1).getD 1 0
        = compute_edit_distance ['a', 'b'] ['b'] :=
  ⟨rfl, get_distance_row_final_entry ['a', 'b'] ['b'] 1 rfl⟩

/- ### C1: the edit script transforms the source into the target -/

theorem min3_eq_cases (a b c : Nat) : min3 a b c = a ∨ min3 a b c = b ∨ min3 a b c = c := by
  unfold min3; omega

theorem dpC_succ (w1 w2 : List Char) (i j : Nat) :
    dpC w1 w2 (i + 1) (j + 1) = if w1.getD i 'a' = w2.getD j 'a' then dpC w1 w2 i j
      else min3 (dpC w1 w2 i j + 1) (dpC w1 w2 (i + 1) j + 1) (dpC w1 w2 i (j + 1) + 1) := by
  rw [dpC]

/-- At any cell other than the origin, at least one backtracking branch
of `compute_edit_operations` applies (so its `while` loop always makes
progress). -/
theorem dpC_branch (w1 w2 : List Char) (i j : Nat) (hij : 0 < i ∨ 0 < j) :
    (0 < i ∧ 0 < j ∧ w1.getD (i - 1) 'a' = w2.getD (j - 1) 'a')
    ∨ (0 < i ∧ 0 < j ∧ dpC w1 w2 i j = dpC w1 w2 (i - 1) (j - 1) + 1)
    ∨ (0 < j ∧ dpC w1 w2 i j = dpC w1 w2 i (j - 1) + 1)
    ∨ (0 < i ∧ dpC w1 w2 i j = dpC w1 w2 (i - 1) j + 1) := by
  rcases i with _ | i
  · rcases j with _ | j
    · omega
    · refine Or.inr (Or.inr (Or.inl ⟨Nat.succ_pos j, ?_⟩))
      rw [dpC_zero_left, Nat.add_sub_cancel, dpC_zero_left]
  · rcases j with _ | j
    · refine Or.inr (Or.inr (Or.inr ⟨Nat.succ_pos i, ?_⟩))
      rw [dpC_zero_right, Nat.add_sub_cancel, dpC_zero_right]
    · simp only [Nat.add_sub_cancel]
      by_cases hc : w1.getD i 'a' = w2.getD j 'a'
      · exact Or.inl ⟨Nat.succ_pos i, Nat.succ_pos j, hc⟩
      · have he := dpC_succ w1 w2 i j
        rw [if_neg hc] at he
        rcases min3_eq_cases (dpC w1 w2 i j + 1) (dpC w1 w2 (i + 1) j + 1)
            (dpC w1 w2 i (j + 1) + 1) with h | h | h
        · exact Or.inr (Or.inl ⟨Nat.succ_pos i, Nat.succ_pos j, he.trans h⟩)
        · exact Or.inr (Or.inr (Or.inl ⟨Nat.succ_pos j, he.trans h⟩))
        · exact Or.inr (Or.inr (Or.inr ⟨Nat.succ_pos i, he.trans h⟩))

/-- Matching characters carry the diagonal value over unchanged. -/
theorem dpC_of_match (w1 w2 : List Char) (i j : Nat) (hi : 0 < i) (hj : 0 < j)
    (hc : w1.getD (i - 1) 'a' = w2.getD (j - 1) 'a') :
    dpC w1 w2 i j = dpC w1 w2 (i - 1) (j - 1) := by
  obtain ⟨i', rfl⟩ : ∃ i', i = i' + 1 := ⟨i - 1, by omega⟩
  obtain ⟨j', rfl⟩ : ∃ j', j = j' + 1 := ⟨j - 1, by omega⟩
  simp only [Nat.add_sub_cancel] at hc ⊢
  rw [dpC_succ, if_pos hc]

theorem backtrackOps_zero (w1 w2 : List Char) : backtrackOps w1 w2 0 0 = [] := by
  rw [backtrackOps.eq_def]

theorem backtrackOps_match (w1 w2 : List Char) (i j : Nat)
    (h1 : 0 < i ∧ 0 < j ∧ w1.getD (i - 1) 'a' = w2.getD (j - 1) 'a') :
    backtrackOps w1 w2 i j = ⟨EDIT_MATCH, w1.getD (i - 1) 'a', w2.getD (j - 1) 'a', i - 1⟩ ::
      backtrackOps w1 w2 (i - 1) (j - 1) := by
  obtain ⟨i', rfl⟩ : ∃ i', i = i' + 1 := ⟨i - 1, by omega⟩
  obtain ⟨j', rfl⟩ : ∃ j', j = j' + 1 := ⟨j - 1, by omega⟩
  rw [backtrackOps.eq_def]
  simp only [dif_pos h1]

theorem backtrackOps_sub (w1 w2 : List Char) (i j : Nat)
    (hn1 : ¬(0 < i ∧ 0 < j ∧ w1.getD (i - 1) 'a' = w2.getD (j - 1) 'a'))
    (h2 : 0 < i ∧ 0 < j ∧ dpC w1 w2 i j = dpC w1 w2 (i - 1) (j - 1) + 1) :
    backtrackOps w1 w2 i j =
      ⟨EDIT_SUBSTITUTE, w1.getD (i - 1) 'a', w2.getD (j - 1) 'a', i - 1⟩ ::
        backtrackOps w1 w2 (i - 1) (j - 1) := by
  obtain ⟨i', rfl⟩ : ∃ i', i = i' + 1 := ⟨i - 1, by omega⟩
  obtain ⟨j', rfl⟩ : ∃ j', j = j' + 1 := ⟨j - 1, by omega⟩
  rw [backtrackOps.eq_def]
  simp only [dif_neg hn1, dif_pos h2]

theorem backtrackOps_ins (w1 w2 : List Char) (i j : Nat)
    (hn1 : ¬(0 < i ∧ 0 < j ∧ w1.getD (i - 1) 'a' = w2.getD (j - 1) 'a'))
    (hn2 : ¬(0 < i ∧ 0 < j ∧ dpC w1 w2 i j = dpC w1 w2 (i - 1) (j - 1) + 1))
    (h3 : 0 < j ∧ dpC w1 w2 i j = dpC w1 w2 i (j - 1) + 1) :
    backtrackOps w1 w2 i j =
      ⟨EDIT_INSERT, Char.ofNat 0, w2.getD (j - 1) 'a', i⟩ ::
        backtrackOps w1 w2 i (j - 1) := by
  obtain ⟨j', rfl⟩ : ∃ j', j = j' + 1 := ⟨j - 1, by omega⟩
  rcases i with _ | i
  · rw [backtrackOps.eq_def]
    simp only [dif_neg hn1, dif_neg hn2, dif_pos h3]
  · rw [backtrackOps.eq_def]
    simp only [dif_neg hn1, dif_neg hn2, dif_pos h3]

theorem backtrackOps_del (w1 w2 : List Char) (i j : Nat)
    (hn1 : ¬(0 < i ∧ 0 < j ∧ w1.getD (i - 1) 'a' = w2.getD (j - 1) 'a'))
    (hn2 : ¬(0 < i ∧ 0 < j ∧ dpC w1 w2 i j = dpC w1 w2 (i - 1) (j - 1) + 1))
    (hn3 : ¬(0 < j ∧ dpC w1 w2 i j = dpC w1 w2 i (j - 1) + 1))
    (h4 : 0 < i ∧ dpC w1 w2 i j = dpC w1 w2 (i - 1) j + 1) :
    backtrackOps w1 w2 i j =
      ⟨EDIT_DELETE, w1.getD (i - 1) 'a', Char.ofNat 0, i - 1⟩ ::
        backtrackOps w1 w2 (i - 1) j := by
  obtain ⟨i', rfl⟩ : ∃ i', i = i' + 1 := ⟨i - 1, by omega⟩
  rcases j with _ | j
  · rw [backtrackOps.eq_def]
    simp only [dif_neg hn1, dif_neg hn2, dif_neg hn3, dif_pos h4]
  · rw [backtrackOps.eq_def]
    simp only [dif_neg hn1, dif_neg hn2, dif_neg hn3, dif_pos h4]

theorem consumedCount_nil : consumedCount [] = 0 := rfl

theorem consumedCount_cons_ins (fc tc : Char) (p : Nat) (l : List EditOperation) :
    consumedCount (⟨EDIT_INSERT, fc, tc, p⟩ :: l) = consumedCount l := by
  simp [consumedCount, List.filter_cons]

theorem consumedCount_cons_other (ty : EditType) (hty : ty ≠ EDIT_INSERT)
    (fc tc : Char) (p : Nat) (l : List EditOperation) :
    consumedCount (⟨ty, fc, tc, p⟩ :: l) = consumedCount l + 1 := by
  simp [consumedCount, List.filter_cons, hty]

theorem consumedCount_reverse (l : List EditOperation) :
    consumedCount l.reverse = consumedCount l := by
  simp [consumedCount, List.filter_reverse]

theorem nonMatchCount_nil : nonMatchCount [] = 0 := rfl

theorem nonMatchCount_cons_match (fc tc : Char) (p : Nat) (l : List EditOperation) :
    nonMatchCount (⟨EDIT_MATCH, fc, tc, p⟩ :: l) = nonMatchCount l := by
  simp [nonMatchCount, List.filter_cons]

theorem nonMatchCount_cons_other (ty : EditType) (hty : ty ≠ EDIT_MATCH)
    (fc tc : Char) (p : Nat) (l : List EditOperation) :
    nonMatchCount (⟨ty, fc, tc, p⟩ :: l) = nonMatchCount l + 1 := by
  simp [nonMatchCount, List.filter_cons, hty]

theorem nonMatchCount_reverse (l : List EditOperation) :
    nonMatchCount l.reverse = nonMatchCount l := by
  simp [nonMatchCount, List.filter_reverse]

/-- The backtracker emits exactly `i` source-consuming operations from
cell `(i, j)`. -/
theorem consumedCount_backtrackOps (w1 w2 : List Char) :
    ∀ i j, consumedCount (backtrackOps w1 w2 i j) = i := by
  intro i j
  induction i, j using backtrackOps.induct w1 w2 with
  | case1 => rw [backtrackOps_zero]; rfl
  | case2 i j hz h1 ih =>
    rw [backtrackOps_match w1 w2 i j h1, consumedCount_cons_other _ (by decide), ih]
    omega
  | case3 i j hz hn1 h2 ih =>
    rw [backtrackOps_sub w1 w2 i j hn1 h2, consumedCount_cons_other _ (by decide), ih]
    omega
  | case4 i j hz hn1 hn2 h3 ih =>
    rw [backtrackOps_ins w1 w2 i j hn1 hn2 h3, consumedCount_cons_ins, ih]
  | case5 i j hz hn1 hn2 hn3 h4 ih =>
    rw [backtrackOps_del w1 w2 i j hn1 hn2 hn3 h4, consumedCount_cons_other _ (by decide), ih]
    omega
  | case6 i j hz hn1 hn2 hn3 hn4 =>
    have hij : 0 < i ∨ 0 < j := by
      rcases Nat.eq_zero_or_pos i with hi | hi
      · rcases Nat.eq_zero_or_pos j with hj | hj
        · exact (hz hi hj).elim
        · exact Or.inr hj
      · exact Or.inl hi
    rcases dpC_branch w1 w2 i j hij with h | h | h | h
    · exact absurd h hn1
    · exact absurd h hn2
    · exact absurd h hn3
    · exact absurd h hn4

/-- The backtracker emits exactly `dp[i][j]` non-match operations from
cell `(i, j)`. -/
theorem nonMatchCount_backtrackOps (w1 w2 : List Char) :
    ∀ i j, nonMatchCount (backtrackOps w1 w2 i j) = dpC w1 w2 i j := by
  intro i j
  induction i, j using backtrackOps.induct w1 w2 with
  | case1 => rw [backtrackOps_zero]; rw [show dpC w1 w2 0 0 = 0 from dpC_zero_left w1 w2 0]; rfl
  | case2 i j hz h1 ih =>
    rw [backtrackOps_match w1 w2 i j h1, nonMatchCount_cons_match, ih,
      dpC_of_match w1 w2 i j h1.1 h1.2.1 h1.2.2]
  | case3 i j hz hn1 h2 ih =>
    rw [backtrackOps_sub w1 w2 i j hn1 h2, nonMatchCount_cons_other _ (by decide), ih, h2.2.2]
  | case4 i j hz hn1 hn2 h3 ih =>
    rw [backtrackOps_ins w1 w2 i j hn1 hn2 h3, nonMatchCount_cons_other _ (by decide), ih, h3.2]
  | case5 i j hz hn1 hn2 hn3 h4 ih =>
    rw [backtrackOps_del w1 w2 i j hn1 hn2 hn3 h4, nonMatchCount_cons_other _ (by decide), ih,
      h4.2]
  | case6 i j hz hn1 hn2 hn3 hn4 =>
    have hij : 0 < i ∨ 0 < j := by
      rcases Nat.eq_zero_or_pos i with hi | hi
      · rcases Nat.eq_zero_or_pos j with hj | hj
        · exact (hz hi hj).elim
        · exact Or.inr hj
      · exact Or.inl hi
    rcases dpC_branch w1 w2 i j hij with h | h | h | h
    · exact absurd h hn1
    · exact absurd h hn2
    · exact absurd h hn3
    · exact absurd h hn4

/-- Splitting an edit script: if the first part consumes exactly `s1`,
application distributes over the split. -/
theorem applyOps_append : ∀ (l1 l2 : List EditOperation) (s1 s2 : List Char),
    consumedCount l1 = s1.length →
    applyOps (l1 ++ l2) (s1 ++ s2) = applyOps l1 s1 ++ applyOps l2 s2 := by
  intro l1
  induction l1 with
  | nil =>
    intro l2 s1 s2 h
    have hs : s1 = [] := List.eq_nil_of_length_eq_zero (by rw [← h]; rfl)
    subst hs
    simp [applyOps]
  | cons op rest ih =>
    intro l2 s1 s2 h
    obtain ⟨ty, fc, tc, pos⟩ := op
    cases ty with
    | EDIT_INSERT =>
      rw [consumedCount_cons_ins] at h
      simp only [List.cons_append, applyOps, List.append_eq]
      rw [ih l2 s1 s2 h]
    | EDIT_MATCH =>
      rw [consumedCount_cons_other _ (by decide)] at h
      rcases s1 with _ | ⟨c, s1'⟩
      · simp at h
      · simp only [List.cons_append, applyOps, List.append_eq]
        rw [ih l2 s1' s2 (by simpa using h)]
    | EDIT_SUBSTITUTE =>
      rw [consumedCount_cons_other _ (by decide)] at h
      rcases s1 with _ | ⟨c, s1'⟩
      · simp at h
      · simp only [List.cons_append, applyOps, List.tail_cons, List.append_eq]
        rw [ih l2 s1' s2 (by simpa using h)]
    | EDIT_DELETE =>
      rw [consumedCount_cons_other _ (by decide)] at h
      rcases s1 with _ | ⟨c, s1'⟩
      · simp at h
      · simp only [List.cons_append, applyOps, List.tail_cons, List.append_eq]
        rw [ih l2 s1' s2 (by simpa using h)]

theorem take_succ_getD (l : List Char) (k : Nat) (h : k < l.length) :
    l.take (k + 1) = l.take k ++ [l.getD k 'a'] := by
  rw [List.take_succ, List.getElem?_eq_getElem h, List.getD_eq_getElem l 'a' h]
  rfl

/-- Applying the (reversed, i.e. start-to-end) backtracked script for
cell `(i, j)` to the first `i` characters of the source yields the first
`j` characters of the target. -/
theorem applyOps_backtrackOps (w1 w2 : List Char) :
    ∀ i j, i ≤ w1.length → j ≤ w2.length →
      applyOps (backtrackOps w1 w2 i j).reverse (w1.take i) = w2.take j := by
  intro i j
  induction i, j using backtrackOps.induct w1 w2 with
  | case1 => intro _ _; rw [backtrackOps_zero]; rfl
  | case2 i j hz h1 ih =>
    intro hi hj
    obtain ⟨hi0, hj0, hc⟩ := h1
    rw [backtrackOps_match w1 w2 i j ⟨hi0, hj0, hc⟩, List.reverse_cons]
    rw [show w1.take i = w1.take (i - 1) ++ [w1.getD (i - 1) 'a'] from by
      rw [← take_succ_getD w1 (i - 1) (by omega)]; congr 1; omega]
    rw [applyOps_append _ _ _ _ (by
      rw [consumedCount_reverse, consumedCount_backtrackOps, List.length_take]; omega)]
    rw [ih (by omega) (by omega)]
    have hap : applyOps [⟨EDIT_MATCH, w1.getD (i - 1) 'a', w2.getD (j - 1) 'a', i - 1⟩]
        [w1.getD (i - 1) 'a'] = [w1.getD (i - 1) 'a'] := by
      simp [applyOps]
    rw [hap, hc, ← take_succ_getD w2 (j - 1) (by omega)]
    congr 1
    omega
  | case3 i j hz hn1 h2 ih =>
    intro hi hj
    rw [backtrackOps_sub w1 w2 i j hn1 h2, List.reverse_cons]
    rw [show w1.take i = w1.take (i - 1) ++ [w1.getD (i - 1) 'a'] from by
      rw [← take_succ_getD w1 (i - 1) (by omega)]; congr 1; omega]
    rw [applyOps_append _ _ _ _ (by
      rw [consumedCount_reverse, consumedCount_backtrackOps, List.length_take]; omega)]
    rw [ih (by omega) (by omega)]
    have hap : applyOps [⟨EDIT_SUBSTITUTE, w1.getD (i - 1) 'a', w2.getD (j - 1) 'a', i - 1⟩]
        [w1.getD (i - 1) 'a'] = [w2.getD (j - 1) 'a'] := by
      simp [applyOps]
    rw [hap, ← take_succ_getD w2 (j - 1) (by omega)]
    congr 1
    omega
  | case4 i j hz hn1 hn2 h3 ih =>
    intro hi hj
    rw [backtrackOps_ins w1 w2 i j hn1 hn2 h3, List.reverse_cons]
    rw [show w1.take i = w1.take i ++ ([] : List Char) from (List.append_nil _).symm]
    rw [applyOps_append _ _ _ _ (by
      rw [consumedCount_reverse, consumedCount_backtrackOps, List.length_take]; omega)]
    rw [ih hi (by omega)]
    have hap : applyOps [⟨EDIT_INSERT, Char.ofNat 0, w2.getD (j - 1) 'a', i⟩]
        ([] : List Char) = [w2.getD (j - 1) 'a'] := by
      simp [applyOps]
    rw [hap, ← take_succ_getD w2 (j - 1) (by omega)]
    congr 1
    omega
  | case5 i j hz hn1 hn2 hn3 h4 ih =>
    intro hi hj
    rw [backtrackOps_del w1 w2 i j hn1 hn2 hn3 h4, List.reverse_cons]
    rw [show w1.take i = w1.take (i - 1) ++ [w1.getD (i - 1) 'a'] from by
      rw [← take_succ_getD w1 (i - 1) (by omega)]; congr 1; omega]
    rw [applyOps_append _ _ _ _ (by
      rw [consumedCount_reverse, consumedCount_backtrackOps, List.length_take]; omega)]
    rw [ih (by omega) hj]
    have hap : applyOps [⟨EDIT_DELETE, w1.getD (i - 1) 'a', Char.ofNat 0, i - 1⟩]
        [w1.getD (i - 1) 'a'] = [] := by
      simp [applyOps]
    rw [hap, List.append_nil]
  | case6 i j hz hn1 hn2 hn3 hn4 =>
    intro hi hj
    have hij : 0 < i ∨ 0 < j := by
      rcases Nat.eq_zero_or_pos i with hzi | hzi
      · rcases Nat.eq_zero_or_pos j with hzj | hzj
        · exact (hz hzi hzj).elim
        · exact Or.inr hzj
      · exact Or.inl hzi
    rcases dpC_branch w1 w2 i j hij with h | h | h | h
    · exact absurd h hn1
    · exact absurd h hn2
    · exact absurd h hn3
    · exact absurd h hn4

/-- C1: the operation sequence returned by `compute_edit_operations`,
applied in order from start to end to the source string `a`, yields
exactly the target string `b`, and its number of non-`match` operations
equals `compute_edit_distance a b`. -/
theorem compute_edit_operations_spec (a b : List Char) :
    applyOps (compute_edit_operations a b).operations a = b ∧
      nonMatchCount (compute_edit_operations a b).operations = compute_edit_distance a b := by
  constructor
  · have h := applyOps_backtrackOps a b a.length b.length le_rfl le_rfl
    rw [List.take_length, List.take_length] at h
    exact h
  · show nonMatchCount (backtrackOps a b a.length b.length).reverse = _
    rw [nonMatchCount_reverse, nonMatchCount_backtrackOps, compute_edit_distance_eq_dpC]

/- ### Trie lemmas -/

theorem getD_set_self {l : List (Option TrieNode)} {i : Nat} (h : i < l.length)
    (v : Option TrieNode) : (l.set i v).getD i none = v := by
  rw [List.getD_eq_getElem?_getD, List.getElem?_set_self (by simpa using h)]
  rfl

theorem getD_set_ne {l : List (Option TrieNode)} {i k : Nat} (h : i ≠ k)
    (v : Option TrieNode) : (l.set i v).getD k none = l.getD k none := by
  rw [List.getD_eq_getElem?_getD, List.getElem?_set_ne h, ← List.getD_eq_getElem?_getD]

theorem mem_of_getD_some {l : List (Option TrieNode)} {i : Nat} {x : TrieNode}
    (h : l.getD i none = some x) : some x ∈ l := by
  rw [List.getD_eq_getElem?_getD] at h
  cases hh : l[i]? with
  | none => rw [hh] at h; simp at h
  | some o => rw [hh] at h; simp at h; subst h; exact List.getElem?_mem hh

theorem getD_replicate_none (i : Nat) :
    (List.replicate 26 (none : Option TrieNode)).getD i none = none := by
  rw [List.getD_eq_getElem?_getD, List.getElem?_replicate]
  split <;> rfl

theorem nodeWF_create : NodeWF trie_node_create := by
  refine NodeWF.mk _ _ _ (by simp) (fun c hc n hn => ?_)
  rw [List.eq_of_mem_replicate hc] at hn
  cases hn

/-- Searching any word in a fresh node fails: no flag, no children. -/
theorem searchGo_create (w : List Char) : searchGo trie_node_create w = false := by
  cases w with
  | nil => rfl
  | cons c rest =>
    show searchGo (.mk (List.replicate 26 none) false 0) (c :: rest) = false
    rw [searchGo]
    split
    · rfl
    · rw [getD_replicate_none]

/-- The insertion loop succeeds exactly when every character folds into
`a`–`z`; success does not depend on the node. -/
theorem insertGo_ok (v : List Char) :
    ∀ n : TrieNode, (insertGo n v).ok = v.all (fun c => isLowerAZ (ctolower c)) := by
  induction v with
  | nil => intro n; cases n; rfl
  | cons c rest ih =>
    intro n
    obtain ⟨ch, e, wc⟩ := n
    rw [insertGo]
    simp only [List.all_cons]
    split
    · next h =>
      have : isLowerAZ (ctolower c) = false := by
        simp only [isLowerAZ]
        simp only [Bool.and_eq_false_iff, decide_eq_false_iff_not]
        omega
      rw [this]
      rfl
    · next h =>
      have : isLowerAZ (ctolower c) = true := by
        simp only [isLowerAZ, Bool.and_eq_true, decide_eq_true_eq]
        omega
      rw [this, Bool.true_and]
      split <;> exact ih _

/-- A failed insertion never sets a new end-of-word flag. -/
theorem insertGo_fail_newWord (v : List Char) :
    ∀ n : TrieNode, (insertGo n v).ok = false → (insertGo n v).newWord = false := by
  induction v with
  | nil => intro n h; obtain ⟨ch, e, wc⟩ := n; cases h
  | cons c rest ih =>
    intro n h
    obtain ⟨ch, e, wc⟩ := n
    rw [insertGo] at h ⊢
    split
    · rfl
    · next hcond =>
      rw [if_neg hcond] at h
      split
      · next hnone => rw [hnone] at h; exact ih _ h
      · next child hsome => rw [hsome] at h; exact ih _ h

/-- Insertion only rebuilds child slots in place: the arrays keep their
26 entries and all nodes stay well-formed. -/
theorem nodeWF_insertGo (v : List Char) :
    ∀ n : TrieNode, NodeWF n → NodeWF (insertGo n v).node := by
  induction v with
  | nil =>
    intro n hwf
    obtain ⟨ch, e, wc⟩ := n
    rcases hwf with ⟨_, _, _, hlen, hch⟩
    exact NodeWF.mk _ _ _ hlen hch
  | cons c rest ih =>
    intro n hwf
    obtain ⟨ch, e, wc⟩ := n
    rcases hwf with ⟨_, _, _, hlen, hch⟩
    rw [insertGo]
    split
    · exact NodeWF.mk _ _ _ hlen hch
    · split
      · next hnone =>
        refine NodeWF.mk _ _ _ (by simpa using hlen) (fun x hx m hm => ?_)
        rcases List.mem_or_eq_of_mem_set hx with hx' | hx'
        · exact hch x hx' m hm
        · rw [hx'] at hm
          cases hm
          exact ih _ nodeWF_create
      · next child hsome =>
        refine NodeWF.mk _ _ _ (by simpa using hlen) (fun x hx m hm => ?_)
        rcases List.mem_or_eq_of_mem_set hx with hx' | hx'
        · exact hch x hx' m hm
        · rw [hx'] at hm
          cases hm
          exact ih _ (hch _ (mem_of_getD_some hsome) _ rfl)

/-- Central transfer lemma: after the insertion loop for `v`, searching
`w` succeeds iff it succeeded before, or the insertion succeeded and `v`
and `w` case-fold to the same string. -/
theorem searchGo_insertGo (v : List Char) :
    ∀ (n : TrieNode) (w : List Char), NodeWF n →
      searchGo (insertGo n v).node w =
        (searchGo n w ||
          ((insertGo n v).ok && decide (v.map ctolower = w.map ctolower))) := by
  induction v with
  | nil =>
    intro n w hwf
    obtain ⟨ch, e, wc⟩ := n
    cases w with
    | nil => simp [insertGo, searchGo, TrieNode.is_end_of_word]
    | cons cw w' =>
      simp only [insertGo]
      rw [searchGo, searchGo]
      simp
  | cons a v' ih =>
    intro n w hwf
    obtain ⟨ch, e, wc⟩ := n
    rcases hwf with ⟨_, _, _, hlen, hch⟩
    rw [insertGo]
    split
    · next hbad => simp
    · next hgood =>
      split
      · next hnone =>
        cases w with
        | nil => simp [searchGo, TrieNode.is_end_of_word]
        | cons cw w' =>
          rw [searchGo, searchGo]
          by_cases hcw : (ctolower cw).toNat < 97 ∨ 122 < (ctolower cw).toNat
          · rw [if_pos hcw, if_pos hcw]
            have hne : ctolower a ≠ ctolower cw := by
              intro hcontr
              have := congrArg Char.toNat hcontr
              omega
            simp [hne]
          · rw [if_neg hcw, if_neg hcw]
            by_cases heq : ctolower cw = ctolower a
            · rw [heq, getD_set_self (by omega) _, hnone]
              show searchGo (insertGo trie_node_create v').node w' = _
              rw [ih _ _ nodeWF_create, searchGo_create]
              have haeq : ctolower a = ctolower cw := heq.symm
              simp [haeq]
            · have hidx : (ctolower cw).toNat - 97 ≠ (ctolower a).toNat - 97 := by
                intro hcontr
                exact heq (char_eq_of_toNat_eq (by omega))
              rw [getD_set_ne (fun hx => hidx hx.symm) _]
              have hne : ctolower a ≠ ctolower cw := fun hx => heq hx.symm
              simp [hne]
      · next child hsome =>
        cases w with
        | nil => simp [searchGo, TrieNode.is_end_of_word]
        | cons cw w' =>
          rw [searchGo, searchGo]
          by_cases hcw : (ctolower cw).toNat < 97 ∨ 122 < (ctolower cw).toNat
          · rw [if_pos hcw, if_pos hcw]
            have hne : ctolower a ≠ ctolower cw := by
              intro hcontr
              have := congrArg Char.toNat hcontr
              omega
            simp [hne]
          · rw [if_neg hcw, if_neg hcw]
            by_cases heq : ctolower cw = ctolower a
            · rw [heq, getD_set_self (by omega) _, hsome]
              show searchGo (insertGo child v').node w' = _
              rw [ih _ _ (hch _ (mem_of_getD_some hsome) _ rfl)]
              have haeq : ctolower a = ctolower cw := heq.symm
              simp [haeq, Bool.or_assoc]
            · have hidx : (ctolower cw).toNat - 97 ≠ (ctolower a).toNat - 97 := by
                intro hcontr
                exact heq (char_eq_of_toNat_eq (by omega))
              rw [getD_set_ne (fun hx => hidx hx.symm) _]
              have hne : ctolower a ≠ ctolower cw := fun hx => heq hx.symm
              simp [hne]

/-- Contribution of one child slot to the end-flag count. -/
def countEndOpt : Option TrieNode → Nat
  | none => 0
  | some n => countEnd n

theorem countEndList_cons (o : Option TrieNode) (t : List (Option TrieNode)) :
    countEndList (o :: t) = countEndOpt o + countEndList t := by
  cases o <;> simp [countEndList, countEndOpt]

theorem countEnd_mk (ch : List (Option TrieNode)) (e : Bool) (wc : Nat) :
    countEnd (.mk ch e wc) = (if e then 1 else 0) + countEndList ch := by
  rw [countEnd]

theorem countEndList_set : ∀ (ch : List (Option TrieNode)) (i : Nat), i < ch.length →
    ∀ v : Option TrieNode,
      countEndList (ch.set i v) + countEndOpt (ch.getD i none)
        = countEndList ch + countEndOpt v := by
  intro ch
  induction ch with
  | nil => intro i hi; simp at hi
  | cons o t ih =>
    intro i hi v
    cases i with
    | zero =>
      simp only [List.set_cons_zero, List.getD_cons_zero, countEndList_cons]
      omega
    | succ i =>
      simp only [List.set_cons_succ, List.getD_cons_succ, countEndList_cons]
      have := ih i (by simpa using hi) v
      omega

theorem countEndList_replicate : ∀ k, countEndList (List.replicate k none) = 0 := by
  intro k
  induction k with
  | zero => rfl
  | succ k ih => rw [List.replicate_succ, countEndList_cons, ih]; rfl

theorem countEnd_create : countEnd trie_node_create = 0 := by
  show countEnd (.mk (List.replicate 26 none) false 0) = 0
  rw [countEnd_mk, countEndList_replicate]
  rfl

/-- Inserting `v` raises the end-flag count by one exactly when the flag
was newly set; a failed insertion leaves the count unchanged (its
freshly-created prefix nodes carry no flags). -/
theorem countEnd_insertGo (v : List Char) :
    ∀ n : TrieNode, NodeWF n →
      countEnd (insertGo n v).node
        = countEnd n + (if (insertGo n v).newWord then 1 else 0) := by
  induction v with
  | nil =>
    intro n hwf
    obtain ⟨ch, e, wc⟩ := n
    show countEnd (.mk ch true (wc + 1)) = countEnd (.mk ch e wc) + _
    rw [countEnd_mk, countEnd_mk]
    show _ = _ + (if !e then 1 else 0)
    cases e <;> simp <;> omega
  | cons a v' ih =>
    intro n hwf
    obtain ⟨ch, e, wc⟩ := n
    rcases hwf with ⟨_, _, _, hlen, hch⟩
    rw [insertGo]
    split
    · simp
    · next hgood =>
      split
      · next hnone =>
        show countEnd (.mk (ch.set _ (some (insertGo trie_node_create v').node)) e wc)
          = countEnd (.mk ch e wc) + _
        rw [countEnd_mk, countEnd_mk]
        have hset := countEndList_set ch ((ctolower a).toNat - 97) (by omega)
          (some (insertGo trie_node_create v').node)
        rw [hnone] at hset
        have hrec := ih trie_node_create nodeWF_create
        rw [countEnd_create] at hrec
        simp only [countEndOpt] at hset
        rw [hrec] at hset
        dsimp only
        omega
      · next child hsome =>
        show countEnd (.mk (ch.set _ (some (insertGo child v').node)) e wc)
          = countEnd (.mk ch e wc) + _
        rw [countEnd_mk, countEnd_mk]
        have hset := countEndList_set ch ((ctolower a).toNat - 97) (by omega)
          (some (insertGo child v').node)
        rw [hsome] at hset
        have hrec := ih child (hch _ (mem_of_getD_some hsome) _ rfl)
        simp only [countEndOpt] at hset
        rw [hrec] at hset
        dsimp only
        omega

/-- Insertion of a non-empty word never touches the root's own flag. -/
theorem insertGo_keeps_end (v : List Char) (hv : v ≠ []) (n : TrieNode) :
    (insertGo n v).node.is_end_of_word = n.is_end_of_word := by
  cases v with
  | nil => exact absurd rfl hv
  | cons a v' =>
    obtain ⟨ch, e, wc⟩ := n
    rw [insertGo]
    split
    · rfl
    · split <;> rfl

/-- Invariants of every reachable dictionary: child arrays have 26
slots, `total_words` counts the flagged nodes, the root is unflagged. -/
def TrieWF (t : Trie) : Prop :=
  NodeWF t.root ∧ t.total_words = countEnd t.root ∧ t.root.is_end_of_word = false

theorem trieWF_create : TrieWF trie_create :=
  ⟨nodeWF_create, by show (0 : Nat) = countEnd trie_node_create; rw [countEnd_create], rfl⟩

theorem trieWF_insert (t : Trie) (w : List Char) (h : TrieWF t) :
    TrieWF (trie_insert t w).2 := by
  obtain ⟨hwf, hcount, hend⟩ := h
  unfold trie_insert
  split
  · exact ⟨hwf, hcount, hend⟩
  · next hne =>
    refine ⟨nodeWF_insertGo w t.root hwf, ?_, ?_⟩
    · show t.total_words + _ = countEnd (insertGo t.root w).node
      rw [countEnd_insertGo w t.root hwf, hcount]
    · show (insertGo t.root w).node.is_end_of_word = false
      rw [insertGo_keeps_end w (by intro hx; rw [hx] at hne; exact hne rfl) t.root, hend]

theorem trieWF_applyInserts (ws : List (List Char)) :
    ∀ t : Trie, TrieWF t → TrieWF (applyInserts ws t) := by
  induction ws with
  | nil => intro t h; exact h
  | cons w ws ih =>
    intro t h
    show TrieWF (applyInserts ws (trie_insert t w).2)
    exact ih _ (trieWF_insert t w h)

/-- `trie_insert` succeeds exactly on non-empty words whose characters
all fold into `a`–`z`. -/
theorem trie_insert_ok (t : Trie) (v : List Char) :
    (trie_insert t v).1 = (!v.isEmpty && v.all (fun c => isLowerAZ (ctolower c))) := by
  unfold trie_insert
  cases v with
  | nil => rfl
  | cons a v' =>
    rw [if_neg (by simp)]
    show (insertGo t.root (a :: v')).ok = _
    rw [insertGo_ok]
    rfl

/-- Trie-level transfer: one insertion extends the searchable set by the
case-folded image of the inserted word (on success) and nothing else. -/
theorem trie_search_insert (t : Trie) (v w : List Char) (hwf : NodeWF t.root) :
    trie_search (trie_insert t v).2 w =
      (trie_search t w ||
        ((trie_insert t v).1 && decide (v.map ctolower = w.map ctolower))) := by
  unfold trie_insert
  split
  · next hv => simp
  · next hv =>
    unfold trie_search
    split
    · next hw =>
      have hne : v.map ctolower ≠ w.map ctolower := by
        intro hx
        have hlen := congrArg List.length hx
        simp at hlen
        omega
      simp [hne]
    · next hw =>
      exact searchGo_insertGo v t.root w hwf

/-- Search in a dictionary built by a sequence of insertions: a word is
found iff it was found before, or some insertion in the sequence
succeeded and case-folds to the same string. -/
theorem trie_search_applyInserts (w : List Char) :
    ∀ (ws : List (List Char)) (t : Trie), TrieWF t →
      trie_search (applyInserts ws t) w =
        (trie_search t w ||
          ws.any (fun v => (!v.isEmpty && v.all (fun c => isLowerAZ (ctolower c))) &&
            decide (v.map ctolower = w.map ctolower))) := by
  intro ws
  induction ws with
  | nil => intro t h; simp [applyInserts]
  | cons v ws ih =>
    intro t h
    show trie_search (applyInserts ws (trie_insert t v).2) w = _
    rw [ih _ (trieWF_insert t v h), trie_search_insert t v w h.1, trie_insert_ok]
    simp [List.any_cons, Bool.or_assoc]

/-- C3: a word successfully inserted into an empty dictionary is found
immediately afterwards, and remains found after any further sequence of
insertions of other words. -/
theorem trie_insert_then_search (w : List Char) (vs : List (List Char))
    (h : (trie_insert trie_create w).1 = true) :
    trie_search (trie_insert trie_create w).2 w = true ∧
      trie_search (applyInserts vs (trie_insert trie_create w).2) w = true := by
  have h1 : trie_search (trie_insert trie_create w).2 w = true := by
    rw [trie_search_insert trie_create w w trieWF_create.1, h]
    simp
  refine ⟨h1, ?_⟩
  rw [trie_search_applyInserts w vs _ (trieWF_insert trie_create w trieWF_create), h1]
  simp

/-- Witness for C3: insert "hi" into an empty dictionary, then insert
"ho"; "hi" is still found. -/
theorem trie_insert_then_search_witness :
    (trie_insert trie_create ['h', 'i']).1 = true ∧
      trie_search (trie_insert trie_create ['h', 'i']).2 ['h', 'i'] = true ∧
      trie_search (applyInserts [['h', 'o']] (trie_insert trie_create ['h', 'i']).2)
        ['h', 'i'] = true :=
  ⟨by decide, (trie_insert_then_search ['h', 'i'] [['h', 'o']] (by decide)).1,
    (trie_insert_then_search ['h', 'i'] [['h', 'o']] (by decide)).2⟩

/-- C5 fails as stated: after inserting only "Hello", searching "HELLO" —
a string that was never inserted and contains characters outside `a`–`z` —
returns true, because both insertion and lookup case-fold. -/
theorem trie_search_never_inserted_counterexample :
    (trie_insert trie_create ['H', 'e', 'l', 'l', 'o']).1 = true ∧
      trie_search (trie_insert trie_create ['H', 'e', 'l', 'l', 'o']).2
        ['H', 'E', 'L', 'L', 'O'] = true ∧
      (['H', 'E', 'L', 'L', 'O'] : List Char) ≠ ['H', 'e', 'l', 'l', 'o'] ∧
      ¬(∀ c ∈ (['H', 'E', 'L', 'L', 'O'] : List Char), 97 ≤ c.toNat ∧ c.toNat ≤ 122) := by
  exact ⟨by decide, by decide, by decide, by decide⟩

/-- A word containing any character that does not fold into `a`–`z` is
rejected by the search loop of every node. -/
theorem searchGo_bad_char : ∀ (w : List Char) (n : TrieNode),
    (∃ c ∈ w, isLowerAZ (ctolower c) = false) → searchGo n w = false := by
  intro w
  induction w with
  | nil => intro n h; simp at h
  | cons c w' ih =>
    intro n h
    obtain ⟨ch, e, wc⟩ := n
    rw [searchGo]
    split
    · rfl
    · next hcond =>
      rcases h with ⟨d, hd, hbad⟩
      rcases List.mem_cons.mp hd with rfl | hd'
      · exfalso
        simp only [isLowerAZ, Bool.and_eq_false_iff, decide_eq_false_iff_not] at hbad
        omega
      · split
        · rfl
        · exact ih _ ⟨d, hd', hbad⟩

/-- C5 (amended): lookup case-folds, so `search` is false for any word
whose case-folded form differs from that of every word in the insertion
history, and false for any word containing a character that does not
case-fold into `a`–`z`; the lookup always returns a boolean, never an
error. -/
theorem trie_search_false_spec (ws : List (List Char)) (w : List Char) :
    ((∀ v ∈ ws, v.map ctolower ≠ w.map ctolower) →
      trie_search (applyInserts ws trie_create) w = false) ∧
    ((∃ c ∈ w, isLowerAZ (ctolower c) = false) → ∀ t : Trie, trie_search t w = false) := by
  constructor
  · intro hne
    rw [trie_search_applyInserts w ws trie_create trieWF_create]
    have hbase : trie_search trie_create w = false := by
      unfold trie_search
      split
      · rfl
      · exact searchGo_create w
    rw [hbase]
    simp only [Bool.false_or, List.any_eq_false]
    intro v hv
    simp [hne v hv]
  · intro hbad t
    unfold trie_search
    split
    · rfl
    · exact searchGo_bad_char w t.root hbad

/-- Witness for C5 (amended): "ab" is not found after inserting only
"hi"; "a1" is never found in any dictionary. -/
theorem trie_search_false_spec_witness :
    trie_search (applyInserts [['h', 'i']] trie_create) ['a', 'b'] = false ∧
      trie_search trie_create ['a', '1'] = false :=
  ⟨(trie_search_false_spec [['h', 'i']] ['a', 'b']).1 (by decide),
    (trie_search_false_spec [['h', 'i']] ['a', '1']).2 (by decide) trie_create⟩

/-- C6 fails as stated: inserting "a1" into a fresh dictionary fails
(the '1' is rejected), yet the memory estimate grows by one node — the
'a' prefix node created before the failure is kept and charged. -/
theorem trie_insert_fail_memory_counterexample :
    (trie_insert trie_create ['a', '1']).1 = false ∧
      (trie_insert trie_create ['a', '1']).2.memory_usage ≠ trie_create.memory_usage := by
  exact ⟨by decide, by decide⟩

/-- C6 (amended): a failed insert never changes any lookup result or the
distinct-word count, and never decreases the memory estimate — but the
estimate may grow, by one node per prefix node created before the
failure point. -/
theorem trie_insert_fail_spec (ws : List (List Char)) (u v : List Char)
    (h : (trie_insert (applyInserts ws trie_create) u).1 = false) :
    trie_search (trie_insert (applyInserts ws trie_create) u).2 v
        = trie_search (applyInserts ws trie_create) v ∧
      (trie_insert (applyInserts ws trie_create) u).2.total_words
        = (applyInserts ws trie_create).total_words ∧
      (applyInserts ws trie_create).memory_usage
        ≤ (trie_insert (applyInserts ws trie_create) u).2.memory_usage := by
  have hwf := trieWF_applyInserts ws trie_create trieWF_create
  refine ⟨?_, ?_, ?_⟩
  · rw [trie_search_insert _ u v hwf.1, h]
    simp
  · by_cases hu : u.length = 0
    · simp [trie_insert, hu]
    · simp only [trie_insert, if_neg hu] at h ⊢
      rw [insertGo_fail_newWord u _ h]
      simp
  · by_cases hu : u.length = 0
    · simp [trie_insert, hu]
    · simp only [trie_insert, if_neg hu]
      exact Nat.le_add_right _ _

/-- Witness for C6 (amended): the failed insert of "a1" into an empty
dictionary leaves lookups and the word count unchanged and does not
shrink the memory estimate. -/
theorem trie_insert_fail_spec_witness :
    (trie_insert (applyInserts [] trie_create) ['a', '1']).1 = false ∧
      (trie_search (trie_insert (applyInserts [] trie_create) ['a', '1']).2 ['a']
          = trie_search (applyInserts [] trie_create) ['a'] ∧
        (trie_insert (applyInserts [] trie_create) ['a', '1']).2.total_words
          = (applyInserts [] trie_create).total_words ∧
        (applyInserts [] trie_create).memory_usage
          ≤ (trie_insert (applyInserts [] trie_create) ['a', '1']).2.memory_usage) :=
  ⟨by decide, trie_insert_fail_spec [] ['a', '1'] ['a'] (by decide)⟩

/-- C7: in every dictionary state reachable from `trie_create` by
insertions, the stored distinct-word count equals the number of
end-flagged nodes, and the memory estimate never decreases across any
further insert. -/
theorem trie_invariants (ws : List (List Char)) (w : List Char) :
    (applyInserts ws trie_create).total_words
        = countEnd (applyInserts ws trie_create).root ∧
      (applyInserts ws trie_create).memory_usage
        ≤ (trie_insert (applyInserts ws trie_create) w).2.memory_usage := by
  refine ⟨(trieWF_applyInserts ws trie_create trieWF_create).2.1, ?_⟩
  by_cases hw : w.length = 0
  · simp [trie_insert, hw]
  · simp only [trie_insert, if_neg hw]
    exact Nat.le_add_right _ _

theorem searchGo_map_ctolower : ∀ (w : List Char) (n : TrieNode),
    searchGo n (w.map ctolower) = searchGo n w := by
  intro w
  induction w with
  | nil => intro n; rfl
  | cons c w' ih =>
    intro n
    obtain ⟨ch, e, wc⟩ := n
    show searchGo (.mk ch e wc) (ctolower c :: w'.map ctolower) = _
    rw [searchGo, searchGo, ctolower_idem]
    split
    · rfl
    · split
      · rfl
      · exact ih _

/-- C9: lookup is invariant under case-folding its argument — a word
with uppercase letters is found exactly when its lowercase form is. -/
theorem trie_search_case_insensitive (t : Trie) (w : List Char) :
    trie_search t w = trie_search t (w.map ctolower) := by
  unfold trie_search
  rw [List.length_map]
  split
  · rfl
  · rw [searchGo_map_ctolower]

/- ### Bubble-sort correctness (`generate_suggestions`) -/

theorem bubblePassN_length : ∀ (m : Nat) (l : List WordDistance),
    (bubblePassN m l).length = l.length := by
  intro m
  induction m with
  | zero => intro l; rfl
  | succ m ih =>
    intro l
    match l with
    | [] => rfl
    | [x] => rfl
    | x :: y :: rest =>
      rw [bubblePassN]
      split <;> simp [ih]

theorem bubblePassN_perm : ∀ (m : Nat) (l : List WordDistance),
    (bubblePassN m l).Perm l := by
  intro m
  induction m with
  | zero => intro l; exact List.Perm.refl l
  | succ m ih =>
    intro l
    match l with
    | [] => exact List.Perm.refl _
    | [x] => exact List.Perm.refl _
    | x :: y :: rest =>
      rw [bubblePassN]
      split
      · exact ((ih (x :: rest)).cons y).trans (List.Perm.swap x y rest)
      · exact (ih (y :: rest)).cons x

/-- One full pass moves a maximum to the end. -/
theorem bubblePassN_last : ∀ (m : Nat) (l : List WordDistance), l.length = m + 1 →
    ∃ (l' : List WordDistance) (M : WordDistance),
      bubblePassN m l = l' ++ [M] ∧ l'.length = m ∧ ∀ a ∈ l', a.2 ≤ M.2 := by
  intro m
  induction m with
  | zero =>
    intro l hl
    match l, hl with
    | [x], _ => exact ⟨[], x, rfl, rfl, by simp⟩
  | succ m ih =>
    intro l hl
    match l with
    | x :: y :: rest =>
      rw [bubblePassN]
      split
      · next hxy =>
        obtain ⟨l', M, heq, hlen, hmax⟩ := ih (x :: rest) (by simpa using hl)
        refine ⟨y :: l', M, by rw [heq]; rfl, by simpa using hlen, ?_⟩
        intro a ha
        rcases List.mem_cons.mp ha with rfl | ha'
        · have hx : x ∈ l' ++ [M] := by
            rw [← heq]
            exact (bubblePassN_perm m (x :: rest)).symm.subset (List.mem_cons_self x rest)
          rcases List.mem_append.mp hx with hx' | hx'
          · exact le_trans (le_of_lt hxy) (hmax x hx')
          · simp at hx'
            rw [hx'] at hxy
            omega
        · exact hmax a ha'
      · next hxy =>
        obtain ⟨l', M, heq, hlen, hmax⟩ := ih (y :: rest) (by simpa using hl)
        refine ⟨x :: l', M, by rw [heq]; rfl, by simpa using hlen, ?_⟩
        intro a ha
        rcases List.mem_cons.mp ha with rfl | ha'
        · have hy : y ∈ l' ++ [M] := by
            rw [← heq]
            exact (bubblePassN_perm m (y :: rest)).symm.subset (List.mem_cons_self y rest)
          rcases List.mem_append.mp hy with hy' | hy'
          · have := hmax y hy'
            omega
          · simp at hy'
            rw [hy'] at hxy
            omega
        · exact hmax a ha'

/-- A pass of `m` compare/swap steps never reads past the first `m + 1`
elements. -/
theorem bubblePassN_confine : ∀ (m : Nat) (l1 l2 : List WordDistance),
    m + 1 ≤ l1.length → bubblePassN m (l1 ++ l2) = bubblePassN m l1 ++ l2 := by
  intro m
  induction m with
  | zero => intro l1 l2 _; rfl
  | succ m ih =>
    intro l1 l2 hlen
    match l1, hlen with
    | x :: y :: rest, hlen2 =>
      show bubblePassN (m + 1) (x :: y :: (rest ++ l2)) = _
      rw [bubblePassN, bubblePassN]
      split
      · rw [show x :: (rest ++ l2) = (x :: rest) ++ l2 from rfl,
          ih (x :: rest) l2 (by simp at hlen2 ⊢; omega)]
        rfl
      · rw [show y :: (rest ++ l2) = (y :: rest) ++ l2 from rfl,
          ih (y :: rest) l2 (by simp at hlen2 ⊢; omega)]
        rfl

theorem bubbleOuter_perm : ∀ (k : Nat) (l : List WordDistance),
    (bubbleOuter k l).Perm l := by
  intro k
  induction k with
  | zero => intro l; exact List.Perm.refl l
  | succ k ih =>
    intro l
    exact (ih (bubblePassN (k + 1) l)).trans (bubblePassN_perm (k + 1) l)

theorem bubbleOuter_confine : ∀ (k : Nat) (l1 l2 : List WordDistance),
    k + 1 ≤ l1.length → bubbleOuter k (l1 ++ l2) = bubbleOuter k l1 ++ l2 := by
  intro k
  induction k with
  | zero => intro l1 l2 _; rfl
  | succ k ih =>
    intro l1 l2 hlen
    show bubbleOuter k (bubblePassN (k + 1) (l1 ++ l2)) = _
    rw [bubblePassN_confine (k + 1) l1 l2 hlen,
      ih (bubblePassN (k + 1) l1) l2 (by rw [bubblePassN_length]; omega)]
    rfl

/-- Main bubble-sort invariant: sorting a block whose elements are all
bounded by an already-sorted tail produces a sorted list. -/
theorem bubbleOuter_sorted : ∀ (k : Nat) (l z : List WordDistance), l.length = k + 1 →
    (∀ a ∈ l, ∀ b ∈ z, a.2 ≤ b.2) → z.Pairwise (fun a b => a.2 ≤ b.2) →
    (bubbleOuter k l ++ z).Pairwise (fun a b => a.2 ≤ b.2) := by
  intro k
  induction k with
  | zero =>
    intro l z hl hbound hz
    match l, hl with
    | [x], _ =>
      exact List.Pairwise.cons (fun b hb => hbound x (by simp) b hb) hz
  | succ k ih =>
    intro l z hl hbound hz
    show ((bubbleOuter k (bubblePassN (k + 1) l)) ++ z).Pairwise _
    obtain ⟨l', M, heq, hlen, hmax⟩ := bubblePassN_last (k + 1) l hl
    rw [heq, bubbleOuter_confine k l' [M] (by omega), List.append_assoc]
    have hmem : ∀ a, a ∈ l' ++ [M] → a ∈ l :=
      fun a ha => (bubblePassN_perm (k + 1) l).subset (heq ▸ ha)
    refine ih l' (M :: z) hlen ?_ ?_
    · intro a ha b hb
      rcases List.mem_cons.mp hb with rfl | hb'
      · exact hmax a ha
      · exact hbound a (hmem a (List.mem_append_left _ ha)) b hb'
    · refine List.Pairwise.cons (fun b hb => ?_) hz
      exact hbound M (hmem M (by simp)) b hb

theorem bubble_sort_perm (l : List WordDistance) : (bubble_sort l).Perm l :=
  bubbleOuter_perm (l.length - 1) l

theorem bubble_sort_sorted (l : List WordDistance) :
    (bubble_sort l).Pairwise (fun a b => a.2 ≤ b.2) := by
  cases l with
  | nil => exact List.Pairwise.nil
  | cons x rest =>
    have h := bubbleOuter_sorted (x :: rest).length.pred (x :: rest) [] (by simp)
      (by simp) List.Pairwise.nil
    rw [List.append_nil] at h
    exact h

/- ### Soundness of `trie_get_all_words` against `trie_search` -/

theorem ctolower_fixed_of_lower {c : Char} (h : 97 ≤ c.toNat) : ctolower c = c := by
  unfold ctolower
  rw [if_neg (by omega)]

/-- Words produced by `collectChildren` come from some child slot,
extended by that slot's letter. -/
theorem collectChildren_mem : ∀ (ch : List (Option TrieNode)) (i : Nat) (pfx w : List Char),
    w ∈ collectChildren ch i pfx →
    ∃ (k : Nat) (c0 : TrieNode), ch.getD k none = some c0 ∧
      w ∈ collectGo c0 (pfx ++ [Char.ofNat (97 + i + k)]) := by
  intro ch
  induction ch with
  | nil => intro i pfx w h; rw [collectChildren] at h; cases h
  | cons o rest ih =>
    intro i pfx w h
    cases o with
    | none =>
      rw [collectChildren] at h
      obtain ⟨k, c0, hk, hw⟩ := ih (i + 1) pfx w h
      refine ⟨k + 1, c0, by simpa using hk, ?_⟩
      rw [show 97 + i + (k + 1) = 97 + (i + 1) + k from by omega]
      exact hw
    | some c =>
      rw [collectChildren] at h
      rcases List.mem_append.mp h with h' | h'
      · exact ⟨0, c, rfl, by simpa using h'⟩
      · obtain ⟨k, c0, hk, hw⟩ := ih (i + 1) pfx w h'
        refine ⟨k + 1, c0, by simpa using hk, ?_⟩
        rw [show 97 + i + (k + 1) = 97 + (i + 1) + k from by omega]
        exact hw

/-- Every word collected from a well-formed node extends the prefix by a
path of lowercase letters that the search loop accepts. -/
theorem collectGo_sound : ∀ (N : Nat) (n : TrieNode), sizeOf n ≤ N → NodeWF n →
    ∀ (pfx w : List Char), w ∈ collectGo n pfx →
    ∃ s, w = pfx ++ s ∧ (∀ c ∈ s, 97 ≤ c.toNat ∧ c.toNat ≤ 122) ∧ searchGo n s = true := by
  intro N
  induction N with
  | zero =>
    intro n hsz
    obtain ⟨ch, e, wc⟩ := n
    simp at hsz
  | succ N ihN =>
    intro n hsz hwf pfx w hmem
    obtain ⟨ch, e, wc⟩ := n
    rcases hwf with ⟨_, _, _, hlen, hch⟩
    rw [collectGo] at hmem
    rcases List.mem_append.mp hmem with hown | hchild
    · split at hown
      · next he =>
        have hw : w = pfx := List.mem_singleton.mp hown
        exact ⟨[], by simpa using hw, by simp, he⟩
      · cases hown
    · obtain ⟨k, c0, hk, hw⟩ := collectChildren_mem ch 0 pfx w hchild
      have hk26 : k < 26 := by
        by_contra hk26
        rw [List.getD_eq_default _ _ (by omega)] at hk
        cases hk
      have hszc : sizeOf c0 ≤ N := by
        have h1 := List.sizeOf_lt_of_mem (mem_of_getD_some hk)
        have h2 : sizeOf (TrieNode.mk ch e wc) = 1 + sizeOf ch + sizeOf e + sizeOf wc := by
          simp
        have h3 : sizeOf (some c0) = 1 + sizeOf c0 := by simp
        omega
      have hvalid : Nat.isValidChar (97 + 0 + k) := Or.inl (by omega)
      obtain ⟨s', hws', hchars', hsearch'⟩ :=
        ihN c0 hszc (hch _ (mem_of_getD_some hk) _ rfl) (pfx ++ [Char.ofNat (97 + 0 + k)]) w hw
      refine ⟨Char.ofNat (97 + 0 + k) :: s', by simpa using hws', ?_, ?_⟩
      · intro c hc
        rcases List.mem_cons.mp hc with rfl | hc'
        · rw [char_toNat_ofNat hvalid]
          omega
        · exact hchars' c hc'
      · rw [searchGo]
        have htn : (ctolower (Char.ofNat (97 + 0 + k))).toNat = 97 + k := by
          rw [ctolower_fixed_of_lower (by rw [char_toNat_ofNat hvalid]; omega),
            char_toNat_ofNat hvalid]
        rw [if_neg (by omega)]
        rw [show (ctolower (Char.ofNat (97 + 0 + k))).toNat - 97 = k from by omega, hk]
        exact hsearch'

/-- Every word enumerated from a reachable dictionary is found by
`trie_search` on that dictionary. -/
theorem trie_get_all_words_sound (ws : List (List Char)) (w : List Char)
    (h : w ∈ trie_get_all_words (applyInserts ws trie_create)) :
    trie_search (applyInserts ws trie_create) w = true := by
  have hwf := trieWF_applyInserts ws trie_create trieWF_create
  obtain ⟨s, hw, _, hsearch⟩ :=
    collectGo_sound (sizeOf (applyInserts ws trie_create).root) _ le_rfl hwf.1 [] w h
  rw [List.nil_append] at hw
  subst hw
  unfold trie_search
  split
  · next hlen =>
    rw [List.length_eq_zero.mp hlen, searchGo] at hsearch
    rw [hwf.2.2] at hsearch
    cases hsearch
  · exact hsearch

/- ### C2: properties of `generate_suggestions` -/

theorem generate_suggestions_eq (q : List Char) (dict : Trie) :
    generate_suggestions q dict =
      ((bubble_sort ((trie_get_all_words dict).filterMap (fun w =>
        if compute_edit_distance q w ≤ 2 ∧ 0 < compute_edit_distance q w
        then some (w, compute_edit_distance q w) else none))).take 5).map Prod.fst := rfl

theorem mem_candidates {q : List Char} {dict : Trie} {p : WordDistance}
    (h : p ∈ (trie_get_all_words dict).filterMap (fun w =>
      if compute_edit_distance q w ≤ 2 ∧ 0 < compute_edit_distance q w
      then some (w, compute_edit_distance q w) else none)) :
    p.1 ∈ trie_get_all_words dict ∧ p.2 = compute_edit_distance q p.1 ∧
      1 ≤ p.2 ∧ p.2 ≤ 2 := by
  rw [List.mem_filterMap] at h
  obtain ⟨a, ha, hfa⟩ := h
  split at hfa
  · next hcond =>
    cases hfa
    exact ⟨ha, rfl, by omega, hcond.1⟩
  · cases hfa

/-- C2: for every reachable dictionary and query, the suggestion list
contains only dictionary words whose edit distance to the query lies in
`[1, 2]` (exact matches never appear), has length at most 5, is sorted
ascending by edit distance, and is empty when no dictionary word lies
within distance 2 of the query. -/
theorem generate_suggestions_spec (ws : List (List Char)) (q : List Char) :
    (∀ s ∈ generate_suggestions q (applyInserts ws trie_create),
        trie_search (applyInserts ws trie_create) s = true ∧
          1 ≤ compute_edit_distance q s ∧ compute_edit_distance q s ≤ 2) ∧
      (generate_suggestions q (applyInserts ws trie_create)).length ≤ 5 ∧
      (generate_suggestions q (applyInserts ws trie_create)).Pairwise
        (fun a b => compute_edit_distance q a ≤ compute_edit_distance q b) ∧
      ((∀ w ∈ trie_get_all_words (applyInserts ws trie_create),
          2 < compute_edit_distance q w) →
        generate_suggestions q (applyInserts ws trie_create) = []) := by
  rw [generate_suggestions_eq]
  have hmemc : ∀ p, p ∈ (bubble_sort ((trie_get_all_words (applyInserts ws trie_create)).filterMap
      (fun w => if compute_edit_distance q w ≤ 2 ∧ 0 < compute_edit_distance q w
        then some (w, compute_edit_distance q w) else none))).take 5 →
      p.1 ∈ trie_get_all_words (applyInserts ws trie_create) ∧
        p.2 = compute_edit_distance q p.1 ∧ 1 ≤ p.2 ∧ p.2 ≤ 2 := by
    intro p hp
    have hp2 := List.take_subset 5 _ hp
    have hp3 := (bubble_sort_perm _).subset hp2
    exact mem_candidates hp3
  refine ⟨?_, ?_, ?_, ?_⟩
  · intro s hs
    obtain ⟨p, hp, hps⟩ := List.mem_map.mp hs
    obtain ⟨hmem, hdist, h1, h2⟩ := hmemc p hp
    rw [← hps]
    exact ⟨trie_get_all_words_sound ws p.1 hmem, by omega, by omega⟩
  · rw [List.length_map]
    have := List.length_take_le 5 (bubble_sort ((trie_get_all_words
      (applyInserts ws trie_create)).filterMap (fun w =>
        if compute_edit_distance q w ≤ 2 ∧ 0 < compute_edit_distance q w
        then some (w, compute_edit_distance q w) else none)))
    omega
  · rw [List.pairwise_map]
    have hsorted := (bubble_sort_sorted ((trie_get_all_words
      (applyInserts ws trie_create)).filterMap (fun w =>
        if compute_edit_distance q w ≤ 2 ∧ 0 < compute_edit_distance q w
        then some (w, compute_edit_distance q w) else none))).sublist
      (List.take_sublist 5 _)
    refine List.Pairwise.imp_of_mem ?_ hsorted
    intro a b ha hb hab
    have hda := (hmemc a ha).2.1
    have hdb := (hmemc b hb).2.1
    omega
  · intro hfar
    have hnil : (trie_get_all_words (applyInserts ws trie_create)).filterMap
        (fun w => if compute_edit_distance q w ≤ 2 ∧ 0 < compute_edit_distance q w
          then some (w, compute_edit_distance q w) else none) = [] := by
      rw [List.filterMap_eq_nil_iff]
      intro a ha
      rw [if_neg]
      intro hcond
      have := hfar a ha
      omega
    rw [hnil]
    rfl

/-- Witness instance for C2 at a concrete dictionary and query. -/
theorem generate_suggestions_spec_witness :
    (generate_suggestions ['h', 'e', 'l', 'o']
      (applyInserts [['h', 'e', 'l', 'l', 'o']] trie_create)).length ≤ 5 :=
  (generate_suggestions_spec [['h', 'e', 'l', 'l', 'o']] ['h', 'e', 'l', 'o']).2.1

/- ### C10: `normalize_word` -/

theorem filterMap_isalpha (w : List Char) :
    w.filterMap (fun c => if isalpha c then some (ctolower c) else none)
      = (w.filter (fun c => isalpha c)).map ctolower := by
  induction w with
  | nil => rfl
  | cons c rest ih =>
    by_cases h : isalpha c = true <;>
      simp [List.filterMap_cons, List.filter_cons, h, ih]

/-- C10: `normalize_word` returns either `none` or a non-empty string of
lowercase letters `a`–`z` — every alphabetic input character case-folded
in order, every other character dropped — and it returns `none` exactly
when the input is empty, longer than 100 characters, or contains no
alphabetic character (allocation is modelled as succeeding). -/
theorem normalize_word_spec (w : List Char) :
    (∀ n, normalize_word w = some n →
        n ≠ [] ∧ (∀ c ∈ n, 97 ≤ c.toNat ∧ c.toNat ≤ 122) ∧
          n = (w.filter (fun c => isalpha c)).map ctolower) ∧
      (normalize_word w = none ↔
        (w = [] ∨ 100 < w.length ∨ ∀ c ∈ w, isalpha c = false)) := by
  have hfm := filterMap_isalpha w
  constructor
  · intro n hn
    unfold normalize_word at hn
    split at hn
    · cases hn
    · split at hn
      · cases hn
      · split at hn
        · cases hn
        · next hne =>
          cases hn
          refine ⟨?_, ?_, hfm⟩
          · intro hnil
            rw [hnil] at hne
            exact hne rfl
          · intro c hc
            rw [hfm] at hc
            obtain ⟨d, hd, hcd⟩ := List.mem_map.mp hc
            have hda : isalpha d = true := (List.mem_filter.mp hd).2
            have := isLowerAZ_ctolower d
            rw [hda] at this
            rw [← hcd]
            simp only [isLowerAZ, Bool.and_eq_true, decide_eq_true_eq] at this
            exact this
  · unfold normalize_word
    split
    · next h0 =>
      rw [List.length_eq_zero.mp h0]
      simp
    · next h0 =>
      split
      · next h1 => simp [h1]
      · next h1 =>
        split
        · next hz =>
          simp only [true_iff]
          refine Or.inr (Or.inr ?_)
          rw [hfm] at hz
          simp only [List.length_map] at hz
          have := List.length_eq_zero.mp hz
          intro c hc
          rcases hca : isalpha c with _ | _
          · rfl
          · exfalso
            have hcf : c ∈ w.filter (fun c => isalpha c) := List.mem_filter.mpr ⟨hc, hca⟩
            rw [this] at hcf
            cases hcf
        · next hz =>
          simp only [reduceCtorEq, false_iff]
          intro hcontr
          rcases hcontr with hcontr | hcontr | hcontr
          · rw [hcontr] at h0
            exact h0 rfl
          · exact h1 hcontr
          · apply hz
            rw [hfm]
            simp only [List.length_map]
            rw [List.length_eq_zero]
            rw [List.filter_eq_nil_iff]
            intro a ha
            rw [hcontr a ha]
            simp
  
/-- Witness for C10: `normalize_word "Ab!" = some "ab"`, a non-empty
lowercase word equal to the folded alphabetic filter of the input. -/
theorem normalize_word_spec_witness :
    (['a', 'b'] : List Char) ≠ [] ∧
      (∀ c ∈ (['a', 'b'] : List Char), 97 ≤ c.toNat ∧ c.toNat ≤ 122) ∧
      (['a', 'b'] : List Char)
        = ((['A', 'b', '!'] : List Char).filter (fun c => isalpha c)).map ctolower :=
  (normalize_word_spec ['A', 'b', '!']).1 ['a', 'b'] (by decide)

/- ### C4: the orchestrator never consults the external oracle -/

/-- C4 at its failing input: dictionary `{"world"}`, one token `"wrld"`,
an initialized oracle that validates every word (`fetch_from_api`
returns 1 for `"wrld"`).  The claim says the orchestrator queries the
oracle and produces no `SpellError` for oracle-validated words; the code
of `spell_check_document` contains no call into `api_client.c`, so the
token still yields a `SpellError`. -/
theorem spell_check_document_ignores_oracle :
    (spell_check_document [⟨['w', 'r', 'l', 'd'], ['w', 'r', 'l', 'd'], 1, 0⟩]
        (applyInserts [['w', 'o', 'r', 'l', 'd']] trie_create)).errors.length = 1 ∧
      fetch_from_api ⟨true, fun _ => 1⟩ ['w', 'r', 'l', 'd'] = 1 := by
  exact ⟨by decide, by decide⟩
